import Mathlib

/-
Verification of the neutrino time-series library (neutrino.py).

The library stores scalar time series in a Redis-like key-value store.
Rules route series names (by regular-expression match, modelled here as a
boolean predicate on names) to a storage resolution and aggregation policy.
Samples are packed into fixed-width (value, count) slots inside expiring
chunk keys; an atomic server-side script (LUA_STRING, instantiated per
method from LUA_METHODS) combines samples landing in the same slot, and
fetch_range reconstructs a down-sampled range.

The shallow embedding below follows the Python source:
  - machine timestamps and steps are integers; Python floor division a//b
    and modulo a%b are Int.fdiv and Int.fmod;
  - scalar sample values are rationals (the numeric payload of a slot);
    a slot is a (value, count) pair, with count a saturating unsigned
    counter whose field width is 4 bytes for the avg method and 1 byte
    otherwise, exactly as in LUA_METHODS;
  - the Redis string value of a chunk key is modelled at slot granularity
    as a list of slots together with the key's current ttl;
  - fallible operations return Except String.
-/

namespace Neutrino

/-- Slot stored in a chunk: the aggregated value and the sample count.
A count of zero is the sentinel for a slot that was never written. -/
abbrev Slot := ℚ × ℕ

/-- Aggregation methods, the keys of LUA_METHODS in the source. -/
inductive Method
  | sum
  | max
  | min
  | avg
  | last
  | rate
deriving DecidableEq, Repr

/-- Width in bytes of the count field, the bytes entry of LUA_METHODS. -/
def countBytes : Method → ℕ
  | .avg => 4
  | _ => 1

/-- Largest value the count field can hold: the literal 2^(8*bytes) - 1
rendered into the Lua script by the template. -/
def countMax (m : Method) : ℕ := 2 ^ (8 * countBytes m) - 1

/-- Next stored value for one incoming sample, the per-method next
expression of LUA_METHODS (evaluated when the previous count is nonzero). -/
def nextValue : Method → ℚ → ℚ → ℚ
  | .sum, prev, value => prev + value
  | .max, prev, value => Max.max prev value
  | .min, prev, value => Min.min prev value
  | .avg, prev, value => prev + value
  | .last, _, value => value
  | .rate, prev, value => prev + value

/-- Effect of the Lua script body on one slot (LUA_STRING): slot is none
when GETRANGE returned fewer bytes than one slot (missing or short chunk);
a zero count means never written, so the script just stores (value, 1);
otherwise it combines with nextValue and increments the count unless the
count already sits at the field maximum. -/
def luaUpdateSlot (m : Method) (slot : Option Slot) (value : ℚ) : Slot :=
  match slot with
  | none => (value, 1)
  | some (prev, count) =>
    if count = 0 then (value, 1)
    else (nextValue m prev value, if count < countMax m then count + 1 else count)

/-- Rule record, the namedtuple Rule of the source. The compiled regular
expression is modelled as a boolean predicate on names. -/
structure Rule where
  pattern : String → Bool
  fmt : Char
  step : ℤ
  chunk : ℤ
  ttl : ℤ
  method : Method

/-- Format characters accepted for the value field, the keys of LUA_FORMAT. -/
def LUA_FORMAT : List Char := ['c', 'b', 'B', 'h', 'H', 'i', 'I', 'l', 'L', 'q', 'Q', 'f', 'd']

/-- Method-name lookup, membership test in LUA_METHODS. -/
def parseMethod (s : String) : Option Method :=
  if s = "sum" then some .sum
  else if s = "max" then some .max
  else if s = "min" then some .min
  else if s = "avg" then some .avg
  else if s = "last" then some .last
  else if s = "rate" then some .rate
  else none

/-- TimeSeries.add_rule: reject an unknown method, then an unknown format
character, then append the new rule at the end of the rule list.  The
Python code raises ValueError in the two reject cases. -/
def add_rule (rules : List Rule) (pattern : String → Bool) (fmt : Char)
    (step chunk ttl : ℤ) (method : String) : Except String (List Rule) :=
  match parseMethod method with
  | none => .error ("unknown method " ++ method)
  | some m =>
    if fmt ∈ LUA_FORMAT then
      .ok (rules ++ [{ pattern := pattern, fmt := fmt, step := step,
                       chunk := chunk, ttl := ttl, method := m }])
    else .error ("unknown format " ++ String.singleton fmt)

/-- Python sorted() is a stable ascending sort; insertRule places the new
element before the first element whose key is not smaller, so an element
keeps its position relative to equal keys that originate later in the
input list. -/
def insertRule (r : Rule) : List Rule → List Rule
  | [] => [r]
  | x :: xs => if x.step < r.step then x :: insertRule r xs else r :: x :: xs

/-- Stable sort of the rule list by step, ascending: sorted(rules, key=step). -/
def sortRules : List Rule → List Rule
  | [] => []
  | r :: rs => insertRule r (sortRules rs)

/-- Check used by the resolution loop in fetch_range: the pattern matches
the name and the rule step is at most the requested step. -/
def ruleMatches (r : Rule) (name : String) (s : ℤ) : Bool :=
  r.pattern name && decide (r.step ≤ s)

/-- First rule of the list satisfying ruleMatches, the for/break loop. -/
def findRule (name : String) (s : ℤ) : List Rule → Option Rule
  | [] => none
  | r :: rs => if ruleMatches r name s then some r else findRule name s rs

/-- Rule resolution in fetch_range: iterate reversed(sorted(rules, key=step))
and take the first rule whose pattern matches the name with step at most
the requested step; none models the RuntimeError (NoRuleError). -/
def resolve (rules : List Rule) (name : String) (s : ℤ) : Option Rule :=
  findRule name s (sortRules rules).reverse

/-- Combining step used to characterise resolve: given the winner among the
later-registered rules, a rule registered earlier displaces it only when it
qualifies with a strictly larger step. -/
def combineR (name : String) (s : ℤ) (r : Rule) (o : Option Rule) : Option Rule :=
  match o with
  | none => if ruleMatches r name s then some r else none
  | some b => if ruleMatches r name s && decide (b.step < r.step) then some r else some b

/-- Reference selection: the qualifying rule with the largest step, ties
going to the one registered latest. Proved equal to resolve below. -/
def pickLast (name : String) (s : ℤ) : List Rule → Option Rule
  | [] => none
  | r :: rs => combineR name s r (pickLast name s rs)

/-- Python range(a, b, s) for a positive stride s, as a list of integers. -/
def pyRange (a b s : ℤ) : List ℤ :=
  (List.range ((b - a + s - 1).fdiv s).toNat).map (fun k : ℕ => a + (k : ℤ) * s)

/-- Prefix of a chunk key: the format string 'ts:%s:%i:%i:%s' up to the name. -/
def chunkKeyPrefix (fmt : Char) (step idx : ℤ) : String :=
  "ts:" ++ String.singleton fmt ++ ":" ++ toString step ++ ":" ++ toString idx ++ ":"

/-- Chunk key as built by update and fetch_range: 'ts:%s:%i:%i:%s' filled
with the format character, the rule step, the chunk index and the name. -/
def chunkKey (fmt : Char) (step idx : ℤ) (name : String) : String :=
  chunkKeyPrefix fmt step idx ++ name

/-- Backing store: each key optionally holds a chunk (list of slots) and the
key's remaining time to live. -/
abbrev RStore := String → Option (List Slot × ℤ)

/-- Store with no keys. -/
def emptyStore : RStore := fun _ => none

/-- Chunk bytes of a key, disregarding the ttl. -/
def stSlots (st : RStore) (k : String) : Option (List Slot) := (st k).map Prod.fst

/-- The pad helper of the source at slot granularity: a missing chunk reads
as size zero slots, a short chunk is right-padded with zero slots, and a
chunk already at or above size is returned unchanged (str.ljust). -/
def padSlots (o : Option (List Slot)) (size : ℕ) : List Slot :=
  match o with
  | none => List.replicate size ((0 : ℚ), (0 : ℕ))
  | some l => l ++ List.replicate (size - l.length) ((0 : ℚ), (0 : ℕ))

/-- Final per-slot transform of fetch_range: avg divides the stored sum by
the count, rate divides it by the rule step, all other methods return the
raw value; a zero count yields None. -/
def transform (m : Method) (rstep : ℤ) (s : Slot) : Option ℚ :=
  match m with
  | .avg => if s.2 = 0 then none else some (s.1 / (s.2 : ℚ))
  | .rate => if s.2 = 0 then none else some (s.1 / (rstep : ℚ))
  | _ => if s.2 = 0 then none else some s.1

/-- Chunk keys read by the fetch_range pipeline:
range(index_start, index_stop + 1, rule.chunk) rendered through the key
format. -/
def fetchChunkKeys (rule : Rule) (name : String) (start stop : ℤ) : List String :=
  (pyRange (start - start.fmod rule.chunk) (stop - stop.fmod rule.chunk + 1) rule.chunk).map
    (fun i => chunkKey rule.fmt rule.step i name)

/-- Flat decoded sequence of fetch_range: every fetched chunk padded to
rule.chunk slots and concatenated in index order. -/
def fetchSeries (rule : Rule) (st : RStore) (name : String) (start stop : ℤ) : List Slot :=
  ((fetchChunkKeys rule name start stop).map
    (fun k => padSlots (stSlots st k) rule.chunk.toNat)).flatten

/-- Indices selected from the flat sequence, the select comprehension:
offset_start + (start % rule.step + i) // rule.step for i in
range(0, stop - start, step). -/
def selectIdxs (rule : Rule) (start stop step : ℤ) : List ℤ :=
  (pyRange 0 (stop - start) step).map
    (fun i => (start.fmod rule.chunk).fdiv rule.step + (start.fmod rule.step + i).fdiv rule.step)

/-- TimeSeries.fetch_range: resolve a rule, read and pad the chunk span,
select slots and apply the final transform.  The error case models the
RuntimeError raised when no rule qualifies. -/
def fetch_range (rules : List Rule) (st : RStore) (name : String)
    (start stop step : ℤ) : Except String (List (Option ℚ)) :=
  match resolve rules name step with
  | none => .error ("No rule found for " ++ name)
  | some rule =>
    .ok ((selectIdxs rule start stop step).map
      (fun j => transform rule.method rule.step
        ((fetchSeries rule st name start stop).getD j.toNat ((0 : ℚ), (0 : ℕ)))))

/-- SETRANGE at slot granularity: writing one slot at index i zero-fills
any gap between the current end of the chunk and i. -/
def setSlot (l : List Slot) (i : ℕ) (s : Slot) : List Slot :=
  (l ++ List.replicate (i + 1 - l.length) ((0 : ℚ), (0 : ℕ))).set i s

/-- Effect of one iteration of the Lua script loop on the store: read the
slot at the given offset of one key (none when the chunk is missing or too
short), combine it with the incoming value, write it back and reset the
key's expiration to ttl. -/
def scriptOne (m : Method) (offset : ℕ) (ttl : ℤ) (st : RStore)
    (key : String) (value : ℚ) : RStore :=
  let slots := (stSlots st key).getD []
  let newSlot := luaUpdateSlot m slots[offset]? value
  fun k => if k = key then some (setSlot slots offset newSlot, ttl) else st k

/-- Loop of the Lua script over KEYS: apply scriptOne to each matched
name/value pair in turn, all sharing the same slot offset and chunk index. -/
def updateKeys (m : Method) (offset : ℕ) (ttl : ℤ) (fmt : Char) (stp idx : ℤ) :
    RStore → List (String × ℚ) → RStore
  | st, [] => st
  | st, p :: rest =>
    updateKeys m offset ttl fmt stp idx
      (scriptOne m offset ttl st (chunkKey fmt stp idx p.1) p.2) rest

/-- One rule iteration of TimeSeries.update: build the matched name/value
pairs, and run the per-method script over the corresponding chunk keys.
When no name matches, the Python line k, v = zip(*match.iteritems())
unpacks an empty sequence and raises ValueError. -/
def updateRule (st : RStore) (rule : Rule) (data : List (String × ℚ)) (t : ℤ) :
    Except String RStore :=
  let idx := t - t.fmod rule.chunk
  let matched := data.filter (fun p => rule.pattern p.1)
  match matched with
  | [] => .error "need more than 0 values to unpack"
  | _ :: _ =>
    .ok (updateKeys rule.method ((t.fmod rule.chunk).fdiv rule.step).toNat rule.ttl
      rule.fmt rule.step idx st matched)

/-- TimeSeries.update: apply every registered rule in insertion order; the
first rule that raises aborts the call. -/
def update (rules : List Rule) (st : RStore) (data : List (String × ℚ)) (t : ℤ) :
    Except String RStore :=
  match rules with
  | [] => .ok st
  | r :: rs =>
    match updateRule st r data t with
    | .error e => .error e
    | .ok s1 => update rs s1 data t

/-- Redis commands relevant to this library. -/
inductive RCmd
  | get (key : String)
  | setrange (key : String) (off : ℕ) (slots : List Slot)
  | expire (key : String) (ttl : ℤ)

/-- Check that a command is a plain read. -/
def RCmd.isGet : RCmd → Bool
  | .get _ => true
  | _ => false

/-- SETRANGE payload application at slot granularity. -/
def writeSlots (l : List Slot) (off : ℕ) : List Slot → List Slot
  | [] => l
  | s :: rest => writeSlots (setSlot l off s) (off + 1) rest

/-- Redis semantics of the three commands on the store: GET reads without
touching the value or the ttl, SETRANGE rewrites bytes keeping the ttl
(a key created this way has no expiration, ttl -1), EXPIRE resets the ttl
of an existing key. -/
def execCmd (st : RStore) : RCmd → RStore
  | .get _ => st
  | .setrange k off v => fun x =>
      if x = k then
        some (writeSlots ((stSlots st k).getD []) off v, ((st k).map Prod.snd).getD (-1))
      else st x
  | .expire k t => fun x =>
      if x = k then (st k).map (fun p => (p.1, t)) else st x

/-- Commands issued by the fetch_range pipeline: one GET per chunk key of
the resolved span, and nothing at all when no rule resolves. -/
def fetchCmds (rules : List Rule) (name : String) (start stop step : ℤ) : List RCmd :=
  match resolve rules name step with
  | none => []
  | some rule => (fetchChunkKeys rule name start stop).map RCmd.get

/-- Rule lists sorted ascending by step. -/
def SortedStep : List Rule → Prop := List.Pairwise (fun a b => a.step ≤ b.step)

/-- Example rule pattern accepting every name. -/
def patTrue : String → Bool := fun _ => true

/-- Example rule used in concrete witnesses: matches exactly the name a. -/
def rExA : Rule :=
  { pattern := fun n => n == "a", fmt := 'f', step := 1, chunk := 10, ttl := 5,
    method := Method.sum }

/-- Second example rule on the name a, same step as rExA but a different
method, used to expose the tie-break among equal-step rules. -/
def rExB : Rule :=
  { pattern := fun n => n == "a", fmt := 'f', step := 1, chunk := 10, ttl := 5,
    method := Method.last }

/-- Example rule used in concrete witnesses: matches exactly the name spam.1. -/
def rExSpam : Rule :=
  { pattern := fun n => n == "spam.1", fmt := 'f', step := 1, chunk := 100,
    ttl := 1000, method := Method.sum }

/-- Store obtained by one concrete update of the spam.1 rule, used as a
concrete witness instance. -/
def c7st : RStore :=
  (update [rExSpam] emptyStore [("spam.1", (3 : ℚ))] 7).toOption.getD emptyStore

/-- Relation between two stored chunk values: after padding to the given
slot count, the two slot lists have the same length and are pointwise
related by R.  Used to transport fetch_range results between stores. -/
def StoreRel (R : Slot → Slot → Prop) (size : ℕ) (o₁ o₂ : Option (List Slot × ℤ)) : Prop :=
  (padSlots (o₁.map Prod.fst) size).length = (padSlots (o₂.map Prod.fst) size).length ∧
  ∀ j, R ((padSlots (o₁.map Prod.fst) size).getD j ((0 : ℚ), (0 : ℕ)))
    ((padSlots (o₂.map Prod.fst) size).getD j ((0 : ℚ), (0 : ℕ)))

/-- Store holding only one unrelated key, for the read-frame witness. -/
def c10st : RStore := fun k => if k = "unrelated" then some ([], 5) else none

/-- Store holding an explicit all-zero chunk for the a series. -/
def c8stB : RStore := fun k =>
  if k = "ts:f:1:0:a" then some (List.replicate 3 ((0 : ℚ), (0 : ℕ)), 7) else none

/-- Store holding a short one-slot chunk for the a series. -/
def c8stC : RStore := fun k =>
  if k = "ts:f:1:0:a" then some ([((5 : ℚ), (1 : ℕ))], 7) else none

/-- Store holding the same chunk as c8stC explicitly right-padded. -/
def c8stD : RStore := fun k =>
  if k = "ts:f:1:0:a" then
    some ([((5 : ℚ), (1 : ℕ))] ++ List.replicate 2 ((0 : ℚ), (0 : ℕ)), 7)
  else none

/-- Example last-method rule on the name a with a small chunk. -/
def rExLast : Rule :=
  { pattern := fun n => n == "a", fmt := 'f', step := 1, chunk := 4, ttl := 9,
    method := Method.last }

/-- Example avg-method rule on the name a with a small chunk. -/
def rExAvg : Rule :=
  { pattern := fun n => n == "a", fmt := 'f', step := 1, chunk := 4, ttl := 9,
    method := Method.avg }

/-- Example sum-method rule on the name a with a small chunk. -/
def rExSum : Rule :=
  { pattern := fun n => n == "a", fmt := 'f', step := 1, chunk := 4, ttl := 9,
    method := Method.sum }

/-- Stores after one and two identical avg updates from empty. -/
def c9avg1 : RStore := (update [rExAvg] emptyStore [("a", (10 : ℚ))] 0).toOption.getD emptyStore

/-- Store after the second identical avg update. -/
def c9avg2 : RStore := (update [rExAvg] c9avg1 [("a", (10 : ℚ))] 0).toOption.getD emptyStore

/-- Stores after one and two identical last updates from empty. -/
def c9last1 : RStore := (update [rExLast] emptyStore [("a", (10 : ℚ))] 0).toOption.getD emptyStore

/-- Store after the second identical last update. -/
def c9last2 : RStore := (update [rExLast] c9last1 [("a", (10 : ℚ))] 0).toOption.getD emptyStore

/-- Stores after one and two identical sum updates from empty. -/
def c9sum1 : RStore := (update [rExSum] emptyStore [("a", (10 : ℚ))] 0).toOption.getD emptyStore

/-- Store after the second identical sum update. -/
def c9sum2 : RStore := (update [rExSum] c9sum1 [("a", (10 : ℚ))] 0).toOption.getD emptyStore

deriving instance DecidableEq for Except

theorem ruleMatches_iff {r : Rule} {name : String} {s : ℤ} :
    ruleMatches r name s = true ↔ r.pattern name = true ∧ r.step ≤ s := by
  simp [ruleMatches]

theorem mem_insertRule {y r : Rule} : ∀ {l : List Rule},
    y ∈ insertRule r l ↔ y = r ∨ y ∈ l := by
  intro l
  induction l with
  | nil => simp [insertRule]
  | cons x xs ih =>
    by_cases hx : x.step < r.step
    · rw [insertRule, if_pos hx, List.mem_cons, ih, List.mem_cons]
      tauto
    · rw [insertRule, if_neg hx]
      exact List.mem_cons

theorem sortedStep_insertRule {r : Rule} : ∀ {l : List Rule},
    SortedStep l → SortedStep (insertRule r l) := by
  intro l hl
  induction l with
  | nil => simp [insertRule, SortedStep]
  | cons x xs ih =>
    rw [SortedStep, List.pairwise_cons] at hl
    by_cases hx : x.step < r.step
    · rw [insertRule, if_pos hx, SortedStep, List.pairwise_cons]
      refine ⟨?_, ih hl.2⟩
      intro y hy
      rcases mem_insertRule.1 hy with h | h
      · exact h ▸ le_of_lt hx
      · exact hl.1 y h
    · rw [insertRule, if_neg hx, SortedStep, List.pairwise_cons]
      refine ⟨?_, List.pairwise_cons.2 hl⟩
      intro y hy
      rcases List.mem_cons.1 hy with h | h
      · exact h ▸ not_lt.1 hx
      · exact le_trans (not_lt.1 hx) (hl.1 y h)

theorem sortedStep_sortRules : ∀ l : List Rule, SortedStep (sortRules l) := by
  intro l
  induction l with
  | nil => simp [sortRules, SortedStep]
  | cons r rs ih => exact sortedStep_insertRule ih

theorem findRule_append (name : String) (s : ℤ) : ∀ l₁ l₂ : List Rule,
    findRule name s (l₁ ++ l₂) =
      (match findRule name s l₁ with
       | some r => some r
       | none => findRule name s l₂) := by
  intro l₁ l₂
  induction l₁ with
  | nil => rfl
  | cons r rs ih =>
    by_cases hm : ruleMatches r name s
    · simp [findRule, hm]
    · simp [findRule, hm, ih]

theorem findRule_mem {name : String} {s : ℤ} {b : Rule} : ∀ {l : List Rule},
    findRule name s l = some b → b ∈ l ∧ ruleMatches b name s = true := by
  intro l h
  induction l with
  | nil => exact absurd h (by simp [findRule])
  | cons r rs ih =>
    by_cases hm : ruleMatches r name s
    · rw [findRule, if_pos hm] at h
      cases h
      exact ⟨List.mem_cons_self _ _, hm⟩
    · rw [findRule, if_neg hm] at h
      exact ⟨List.mem_cons_of_mem _ (ih h).1, (ih h).2⟩

theorem findRule_insertRule (name : String) (s : ℤ) (r : Rule) :
    ∀ L : List Rule, SortedStep L →
    findRule name s (insertRule r L).reverse =
      combineR name s r (findRule name s L.reverse) := by
  intro L
  induction L with
  | nil => cases hm : ruleMatches r name s <;> simp [insertRule, findRule, combineR, hm]
  | cons x xs ih =>
    intro hs
    rw [SortedStep, List.pairwise_cons] at hs
    by_cases hx : x.step < r.step
    · rw [insertRule, if_pos hx, List.reverse_cons, findRule_append,
        ih hs.2, List.reverse_cons, findRule_append]
      cases hfb : findRule name s xs.reverse with
      | some b =>
        cases hcond : (ruleMatches r name s && decide (b.step < r.step)) <;>
          simp [combineR, hcond]
      | none =>
        cases hm : ruleMatches r name s with
        | true =>
          cases hmx : ruleMatches x name s with
          | true => simp [combineR, findRule, hm, hmx, hx]
          | false => simp [combineR, findRule, hm, hmx]
        | false =>
          cases hmx : ruleMatches x name s with
          | true => simp [combineR, findRule, hm, hmx]
          | false => simp [combineR, findRule, hm, hmx]
    · rw [insertRule, if_neg hx]
      rw [List.reverse_cons, findRule_append]
      cases hfb : findRule name s (x :: xs).reverse with
      | some b =>
        have hb := findRule_mem hfb
        have hbx : b ∈ x :: xs := List.mem_reverse.1 hb.1
        have hxb : x.step ≤ b.step := by
          rcases List.mem_cons.1 hbx with h | h
          · exact h ▸ le_refl _
          · exact hs.1 b h
        have hrb : ¬ b.step < r.step := not_lt.2 (le_trans (not_lt.1 hx) hxb)
        simp [combineR, hrb]
      | none =>
        cases hm : ruleMatches r name s <;> simp [combineR, findRule, hm]

theorem resolve_eq_pickLast : ∀ (rules : List Rule) (name : String) (s : ℤ),
    resolve rules name s = pickLast name s rules := by
  intro rules name s
  induction rules with
  | nil => rfl
  | cons r rs ih =>
    show findRule name s (insertRule r (sortRules rs)).reverse = _
    rw [findRule_insertRule name s r (sortRules rs) (sortedStep_sortRules rs)]
    rw [show findRule name s (sortRules rs).reverse = resolve rs name s from rfl, ih]
    rfl

theorem pickLast_qualifies {name : String} {s : ℤ} : ∀ {l : List Rule} {b : Rule},
    pickLast name s l = some b → ruleMatches b name s = true ∧ b ∈ l := by
  intro l
  induction l with
  | nil => intro b h; exact absurd h (by simp [pickLast])
  | cons r rs ih =>
    intro b h
    rw [pickLast] at h
    cases ho : pickLast name s rs with
    | none =>
      rw [ho, combineR] at h
      by_cases hm : ruleMatches r name s
      · rw [if_pos hm] at h
        cases h
        exact ⟨hm, List.mem_cons_self _ _⟩
      · rw [if_neg hm] at h
        cases h
    | some c =>
      rw [ho, combineR] at h
      by_cases hcond : (ruleMatches r name s && decide (c.step < r.step)) = true
      · rw [if_pos hcond] at h
        cases h
        rw [Bool.and_eq_true] at hcond
        exact ⟨hcond.1, List.mem_cons_self _ _⟩
      · rw [if_neg hcond] at h
        cases h
        exact ⟨(ih ho).1, List.mem_cons_of_mem _ (ih ho).2⟩

theorem pickLast_none_iff {name : String} {s : ℤ} : ∀ {l : List Rule},
    pickLast name s l = none ↔ ∀ r ∈ l, ruleMatches r name s = false := by
  intro l
  induction l with
  | nil => simp [pickLast]
  | cons r rs ih =>
    constructor
    · intro h
      rw [pickLast] at h
      cases ho : pickLast name s rs with
      | none =>
        rw [ho, combineR] at h
        by_cases hm : ruleMatches r name s
        · rw [if_pos hm] at h; cases h
        · intro y hy
          rcases List.mem_cons.1 hy with hh | hh
          · subst hh; simpa using hm
          · exact ih.1 ho y hh
      | some c =>
        rw [ho, combineR] at h
        by_cases hcond : (ruleMatches r name s && decide (c.step < r.step)) = true
        · rw [if_pos hcond] at h; cases h
        · rw [if_neg hcond] at h; cases h
    · intro h
      have hr : ruleMatches r name s = false := h r (List.mem_cons_self _ _)
      have hrs : pickLast name s rs = none :=
        ih.2 (fun y hy => h y (List.mem_cons_of_mem _ hy))
      rw [pickLast, hrs, combineR, hr]
      simp

theorem pickLast_maximal {name : String} {s : ℤ} : ∀ {l : List Rule} {b : Rule},
    pickLast name s l = some b →
    ∀ r ∈ l, ruleMatches r name s = true → r.step ≤ b.step := by
  intro l
  induction l with
  | nil => intro b h; exact absurd h (by simp [pickLast])
  | cons x xs ih =>
    intro b h r hr hm
    rw [pickLast] at h
    cases ho : pickLast name s xs with
    | none =>
      rw [ho, combineR] at h
      by_cases hmx : ruleMatches x name s
      · rw [if_pos hmx] at h
        cases h
        rcases List.mem_cons.1 hr with hh | hh
        · exact hh ▸ le_refl _
        · have hf := pickLast_none_iff.1 ho r hh
          rw [hf] at hm
          cases hm
      · rw [if_neg hmx] at h; cases h
    | some c =>
      rw [ho, combineR] at h
      by_cases hcond : (ruleMatches x name s && decide (c.step < x.step)) = true
      · rw [if_pos hcond] at h
        cases h
        rw [Bool.and_eq_true] at hcond
        have hcx : c.step < x.step := of_decide_eq_true hcond.2
        rcases List.mem_cons.1 hr with hh | hh
        · exact hh ▸ le_refl _
        · exact le_trans (ih ho r hh hm) (le_of_lt hcx)
      · rw [if_neg hcond] at h
        cases h
        rcases List.mem_cons.1 hr with hh | hh
        · subst hh
          rw [Bool.and_eq_true] at hcond
          by_contra hgt
          exact hcond ⟨hm, decide_eq_true (not_le.1 hgt)⟩
        · exact ih ho r hh hm

theorem pickLast_latest {name : String} {s : ℤ} : ∀ {l : List Rule} {b : Rule},
    pickLast name s l = some b →
    ∃ i, l[i]? = some b ∧ ∀ (j : ℕ) (r : Rule), i < j → l[j]? = some r →
      ruleMatches r name s = true → r.step < b.step := by
  intro l
  induction l with
  | nil => intro b h; exact absurd h (by simp [pickLast])
  | cons x xs ih =>
    intro b h
    rw [pickLast] at h
    cases ho : pickLast name s xs with
    | none =>
      rw [ho, combineR] at h
      by_cases hmx : ruleMatches x name s
      · rw [if_pos hmx] at h
        cases h
        refine ⟨0, by simp, ?_⟩
        intro j r hj hjr hm
        obtain ⟨j0, rfl⟩ : ∃ j0, j = j0 + 1 := ⟨j - 1, by omega⟩
        rw [List.getElem?_cons_succ] at hjr
        have hf := pickLast_none_iff.1 ho r (List.getElem?_mem hjr)
        rw [hf] at hm
        cases hm
      · rw [if_neg hmx] at h; cases h
    | some c =>
      rw [ho, combineR] at h
      by_cases hcond : (ruleMatches x name s && decide (c.step < x.step)) = true
      · rw [if_pos hcond] at h
        cases h
        refine ⟨0, by simp, ?_⟩
        intro j r hj hjr hm
        obtain ⟨j0, rfl⟩ : ∃ j0, j = j0 + 1 := ⟨j - 1, by omega⟩
        rw [List.getElem?_cons_succ] at hjr
        have hrc : r.step ≤ c.step := pickLast_maximal ho r (List.getElem?_mem hjr) hm
        rw [Bool.and_eq_true] at hcond
        have hcx : c.step < x.step := of_decide_eq_true hcond.2
        exact lt_of_le_of_lt hrc hcx
      · rw [if_neg hcond] at h
        cases h
        obtain ⟨i, hi, hlat⟩ := ih ho
        refine ⟨i + 1, by simpa using hi, ?_⟩
        intro j r hj hjr hm
        obtain ⟨j0, rfl⟩ : ∃ j0, j = j0 + 1 := ⟨j - 1, by omega⟩
        rw [List.getElem?_cons_succ] at hjr
        exact hlat j0 r (by omega) hjr hm

/-- C2 counterexample: with two registered rules of equal step both
matching the name a, fetch_range resolution returns the later-registered
rule (method last), not the earliest-registered one (method sum): the
reversed stable sort puts the later among equal steps first. -/
theorem claimC2_counterexample :
    (resolve [rExA, rExB] "a" 1).map (fun r => r.method) = some Method.last ∧
    rExA.method = Method.sum ∧ rExB.method = Method.last ∧
    ruleMatches rExA "a" 1 = true ∧ ruleMatches rExB "a" 1 = true ∧
    rExA.step = rExB.step :=
  ⟨rfl, rfl, rfl, rfl, rfl, rfl⟩

/-- C2 amended: among registered rules whose pattern matches the name and
whose step is at most the requested step, resolution picks one with the
largest step, and among those sharing that largest step the
latest-registered (last-inserted) one; when no rule qualifies the call
fails with the no-rule error. -/
theorem claimC2_amended (rules : List Rule) (name : String) (s : ℤ) :
    (resolve rules name s = none ↔
      ∀ r ∈ rules, ¬(r.pattern name = true ∧ r.step ≤ s)) ∧
    (∀ b, resolve rules name s = some b →
      (b.pattern name = true ∧ b.step ≤ s) ∧ b ∈ rules ∧
      (∀ r ∈ rules, r.pattern name = true → r.step ≤ s → r.step ≤ b.step) ∧
      (∃ i, rules[i]? = some b ∧ ∀ (j : ℕ) (r : Rule), i < j → rules[j]? = some r →
        r.pattern name = true → r.step ≤ s → r.step < b.step)) ∧
    (∀ (st : RStore) (start stop : ℤ), resolve rules name s = none →
      fetch_range rules st name start stop s = .error ("No rule found for " ++ name)) := by
  refine ⟨?_, ?_, ?_⟩
  · rw [resolve_eq_pickLast, pickLast_none_iff]
    constructor
    · intro h r hr hq
      have h2 : ruleMatches r name s = true := ruleMatches_iff.2 hq
      rw [h r hr] at h2
      cases h2
    · intro h r hr
      by_cases hm : ruleMatches r name s
      · exact absurd (ruleMatches_iff.1 hm) (h r hr)
      · simpa using hm
  · intro b hb
    rw [resolve_eq_pickLast] at hb
    have hq := pickLast_qualifies hb
    refine ⟨ruleMatches_iff.1 hq.1, hq.2, ?_, ?_⟩
    · intro r hr hp hs
      exact pickLast_maximal hb r hr (ruleMatches_iff.2 ⟨hp, hs⟩)
    · obtain ⟨i, hi, hlat⟩ := pickLast_latest hb
      refine ⟨i, hi, ?_⟩
      intro j r hj hjr hp hs
      exact hlat j r hj hjr (ruleMatches_iff.2 ⟨hp, hs⟩)
  · intro st start stop hnone
    unfold fetch_range
    rw [hnone]

theorem fmod_fmod_of_fmod_eq_zero {cs rs : ℤ} (start : ℤ) (hrs : 0 < rs) (hcs : 0 < cs)
    (hdvd : cs.fmod rs = 0) : (start.fmod cs).fmod rs = start.fmod rs := by
  have hrs0 : (0 : ℤ) ≤ rs := le_of_lt hrs
  have hcs0 : (0 : ℤ) ≤ cs := le_of_lt hcs
  have hd : rs ∣ cs := by
    rw [Int.fmod_eq_emod _ hrs0] at hdvd
    exact Int.dvd_of_emod_eq_zero hdvd
  rw [Int.fmod_eq_emod _ hrs0, Int.fmod_eq_emod _ hcs0, Int.fmod_eq_emod _ hrs0]
  exact Int.emod_emod_of_dvd start hd

theorem fdiv_split (a i rs : ℤ) (hrs : 0 < rs) :
    a.fdiv rs + (a.fmod rs + i).fdiv rs = (a + i).fdiv rs := by
  have hrs0 : (0 : ℤ) ≤ rs := le_of_lt hrs
  have hne : rs ≠ 0 := ne_of_gt hrs
  rw [Int.fdiv_eq_ediv _ hrs0, Int.fdiv_eq_ediv _ hrs0, Int.fdiv_eq_ediv _ hrs0,
    Int.fmod_eq_emod _ hrs0]
  have h1 : a + i = (a % rs + i) + rs * (a / rs) := by
    have h := Int.ediv_add_emod a rs
    linarith
  rw [h1, Int.add_mul_ediv_left _ _ hne]
  ring

theorem selectIdx_eq (start i cs rs : ℤ) (hrs : 0 < rs) (hcs : 0 < cs)
    (hdvd : cs.fmod rs = 0) :
    (start.fmod cs).fdiv rs + (start.fmod rs + i).fdiv rs
      = (start + i - (start - start.fmod cs)).fdiv rs := by
  have h1 : start + i - (start - start.fmod cs) = start.fmod cs + i := by ring
  rw [h1, ← fmod_fmod_of_fmod_eq_zero start hrs hcs hdvd,
    fdiv_split (start.fmod cs) i rs hrs]

theorem pyRange_length (a b s : ℤ) :
    (pyRange a b s).length = ((b - a + s - 1).fdiv s).toNat := by
  rw [pyRange, List.length_map, List.length_range]

theorem pyRange_getElem (a b s : ℤ) (j : ℕ) (hj : j < ((b - a + s - 1).fdiv s).toNat) :
    (pyRange a b s)[j]? = some (a + (j : ℤ) * s) := by
  rw [pyRange, List.getElem?_map, List.getElem?_range hj]
  rfl

theorem ceil_fdiv_bounds (D s : ℤ) (hs : 0 < s) :
    D ≤ s * ((D + s - 1).fdiv s) ∧ s * ((D + s - 1).fdiv s) < D + s := by
  have hs0 : (0 : ℤ) ≤ s := le_of_lt hs
  rw [Int.fdiv_eq_ediv _ hs0]
  have he := Int.ediv_add_emod (D + s - 1) s
  have h1 : 0 ≤ (D + s - 1) % s := Int.emod_nonneg _ (ne_of_gt hs)
  have h2 : (D + s - 1) % s < s := Int.emod_lt_of_pos _ hs
  exact ⟨by linarith, by linarith⟩

/-- C5: when the resolved rule's chunk span is a multiple of its step, a
fetch_range call returns exactly the ceiling of (stop - start) / step
elements, and the element at output position j is the transformed slot of
the flat decoded chunk concatenation at index
(start + j * step - indexStart) // rule.step. -/
theorem claimC5_theorem (rules : List Rule) (st : RStore) (name : String)
    (start stop step : ℤ) (rule : Rule)
    (hres : resolve rules name step = some rule)
    (hrs : 0 < rule.step) (hcs : 0 < rule.chunk) (hs : 0 < step)
    (hss : start ≤ stop) (hdvd : rule.chunk.fmod rule.step = 0) :
    ∃ l, fetch_range rules st name start stop step = .ok l ∧
      l.length = ((stop - start + step - 1).fdiv step).toNat ∧
      stop - start ≤ step * (l.length : ℤ) ∧
      step * (l.length : ℤ) < (stop - start) + step ∧
      ∀ j : ℕ, j < l.length →
        l[j]? = some (transform rule.method rule.step
          ((fetchSeries rule st name start stop).getD
            (((start + (j : ℤ) * step - (start - start.fmod rule.chunk)).fdiv rule.step).toNat)
            ((0 : ℚ), (0 : ℕ)))) := by
  have hnn : 0 ≤ (stop - start + step - 1).fdiv step := by
    rw [Int.fdiv_eq_ediv _ (le_of_lt hs)]
    exact Int.ediv_nonneg (by linarith) (le_of_lt hs)
  have hsl : (selectIdxs rule start stop step).length
      = ((stop - start + step - 1).fdiv step).toNat := by
    rw [selectIdxs, List.length_map, pyRange_length, sub_zero]
  refine ⟨(selectIdxs rule start stop step).map
    (fun j => transform rule.method rule.step
      ((fetchSeries rule st name start stop).getD j.toNat ((0 : ℚ), (0 : ℕ)))), ?_, ?_, ?_, ?_, ?_⟩
  · unfold fetch_range
    rw [hres]
  · rw [List.length_map, hsl]
  · rw [List.length_map, hsl, Int.toNat_of_nonneg hnn]
    exact (ceil_fdiv_bounds (stop - start) step hs).1
  · rw [List.length_map, hsl, Int.toNat_of_nonneg hnn]
    exact (ceil_fdiv_bounds (stop - start) step hs).2
  · intro j hj
    rw [List.length_map] at hj
    rw [List.getElem?_map]
    have hjr : j < ((stop - start + step - 1).fdiv step).toNat := by
      rw [hsl] at hj
      exact hj
    have hsel : (selectIdxs rule start stop step)[j]? =
        some ((start.fmod rule.chunk).fdiv rule.step +
          (start.fmod rule.step + (0 + (j : ℤ) * step)).fdiv rule.step) := by
      rw [selectIdxs, List.getElem?_map,
        pyRange_getElem 0 (stop - start) step j (by rw [sub_zero]; exact hjr)]
      rfl
    rw [hsel]
    have harith : (start.fmod rule.chunk).fdiv rule.step +
        (start.fmod rule.step + (0 + (j : ℤ) * step)).fdiv rule.step
        = (start + (j : ℤ) * step - (start - start.fmod rule.chunk)).fdiv rule.step := by
      rw [zero_add]
      exact selectIdx_eq start ((j : ℤ) * step) rule.chunk rule.step hrs hcs hdvd
    rw [harith]
    rfl

/-- C5 witness: the statement evaluated on a concrete one-rule query with
step 1 and chunk 10 over the range 0 to 3. -/
theorem claimC5_witness :
    resolve [rExA] "a" 1 = some rExA ∧ (0 : ℤ) < rExA.step ∧ (0 : ℤ) < rExA.chunk ∧
    (0 : ℤ) < 1 ∧ (0 : ℤ) ≤ 3 ∧ rExA.chunk.fmod rExA.step = 0 ∧
    ∃ l, fetch_range [rExA] emptyStore "a" 0 3 1 = .ok l ∧
      l.length = (((3 : ℤ) - 0 + 1 - 1).fdiv 1).toNat ∧
      (3 : ℤ) - 0 ≤ 1 * (l.length : ℤ) ∧
      (1 : ℤ) * (l.length : ℤ) < ((3 : ℤ) - 0) + 1 ∧
      ∀ j : ℕ, j < l.length →
        l[j]? = some (transform rExA.method rExA.step
          ((fetchSeries rExA emptyStore "a" 0 3).getD
            ((((0 : ℤ) + (j : ℤ) * 1 - (0 - (0 : ℤ).fmod rExA.chunk)).fdiv rExA.step).toNat)
            ((0 : ℚ), (0 : ℕ)))) := by
  refine ⟨rfl, by decide, by decide, by decide, by decide, by decide, ?_⟩
  exact claimC5_theorem [rExA] emptyStore "a" 0 3 1 rExA rfl (by decide) (by decide)
    (by decide) (by decide) (by decide)

/-- C2 witness: the amended statement evaluated on the two-rule example (a
tie resolved to the later rule) and on a query no rule matches. -/
theorem claimC2_witness :
    resolve [rExA, rExB] "a" 1 = some rExB ∧ rExB ∈ [rExA, rExB] ∧
    resolve [rExA] "b" 1 = none ∧
    fetch_range [rExA] emptyStore "b" 0 1 1 = .error ("No rule found for " ++ "b") := by
  refine ⟨rfl, ((claimC2_amended [rExA, rExB] "a" 1).2.1 rExB rfl).2.1, rfl, ?_⟩
  exact (claimC2_amended [rExA] "b" 1).2.2 emptyStore 0 1 rfl

/-- C1 counterexample: the combine table does not describe what the script
stores into an empty slot.  For the min method, previous pair (0, 0) and
sample 5, the table value min(prev, x) = 0, but the script stores (5, 1):
an empty slot always receives the raw sample, whatever the method. -/
theorem claimC1_counterexample :
    luaUpdateSlot Method.min (some ((0 : ℚ), (0 : ℕ))) 5 ≠ (Min.min (0 : ℚ) 5, (1 : ℕ)) := by
  decide

/-- C1 amended: when the previous count is nonzero the script stores the
combine-table value (prev + x for sum, rate and avg; max for max; min for
min; x for last) and the saturating increment of the count; when the slot
was empty (count zero, or the chunk missing or short) it stores (x, 1)
regardless of the method.  The count never leaves [1, countMax]. -/
theorem claimC1_amended (m : Method) (prev x : ℚ) (count : ℕ) (h : count ≤ countMax m) :
    luaUpdateSlot m none x = (x, 1) ∧
    (count = 0 → luaUpdateSlot m (some (prev, count)) x = (x, 1)) ∧
    (count ≠ 0 →
      (luaUpdateSlot m (some (prev, count)) x).1 = nextValue m prev x ∧
      (count < countMax m → (luaUpdateSlot m (some (prev, count)) x).2 = count + 1) ∧
      (count = countMax m → (luaUpdateSlot m (some (prev, count)) x).2 = countMax m)) ∧
    nextValue m prev x = (match m with
      | .sum => prev + x
      | .max => Max.max prev x
      | .min => Min.min prev x
      | .avg => prev + x
      | .last => x
      | .rate => prev + x) ∧
    1 ≤ (luaUpdateSlot m (some (prev, count)) x).2 ∧
    (luaUpdateSlot m (some (prev, count)) x).2 ≤ countMax m := by
  have hmax : 1 ≤ countMax m := by cases m <;> decide
  refine ⟨rfl, ?_, ?_, by cases m <;> rfl, ?_, ?_⟩
  · intro hc; simp [luaUpdateSlot, hc]
  · intro hc
    refine ⟨by simp [luaUpdateSlot, hc], ?_, ?_⟩
    · intro hlt; simp [luaUpdateSlot, hc, hlt]
    · intro heq; subst heq; simp [luaUpdateSlot, hc]
  · by_cases hc : count = 0
    · simp [luaUpdateSlot, hc]
    · by_cases hlt : count < countMax m
      · simp [luaUpdateSlot, hc, hlt]
      · simp [luaUpdateSlot, hc, hlt]; omega
  · by_cases hc : count = 0
    · simp [luaUpdateSlot, hc]; exact hmax
    · by_cases hlt : count < countMax m
      · simp [luaUpdateSlot, hc, hlt]; omega
      · simp [luaUpdateSlot, hc, hlt]; exact h

/-- C1 witness: the amended statement evaluated for the min method on the
previous pair (2, 3) and sample 5. -/
theorem claimC1_witness :
    (3 : ℕ) ≤ countMax Method.min ∧
    (luaUpdateSlot Method.min (some ((2 : ℚ), 3)) 5).1 = nextValue Method.min 2 5 ∧
    (luaUpdateSlot Method.min (some ((2 : ℚ), 3)) 5).2 = 4 := by
  have h := claimC1_amended Method.min 2 5 3 (by decide)
  have h3 : (3 : ℕ) ≠ 0 := by decide
  refine ⟨by decide, (h.2.2.1 h3).1, ?_⟩
  simpa using (h.2.2.1 h3).2.1 (by decide)

/-- C3 counterexample: add_rule does not validate that chunkSpan is a
multiple of step — with step 3 and chunk 10 (10 mod 3 is not 0) the call
succeeds and appends the rule instead of failing. -/
theorem claimC3_counterexample :
    add_rule [] patTrue 'f' 3 10 100 "sum" =
      .ok [{ pattern := patTrue, fmt := 'f', step := 3, chunk := 10, ttl := 100,
             method := Method.sum }] ∧
    (10 : ℤ).fmod 3 ≠ 0 :=
  ⟨rfl, by decide⟩

/-- C3 amended: add_rule fails (raising ValueError, leaving the rule list
untouched) exactly when the method is not one of the six supported methods
or the format character is not one of the supported scalar types; the
divisibility of chunkSpan by step is not checked.  A valid call appends
the new rule at the end of the ordered list. -/
theorem claimC3_amended :
    (∀ (rules : List Rule) (p : String → Bool) (fmt : Char) (step chunk ttl : ℤ)
       (method : String), parseMethod method = none →
      add_rule rules p fmt step chunk ttl method = .error ("unknown method " ++ method)) ∧
    (∀ (rules : List Rule) (p : String → Bool) (fmt : Char) (step chunk ttl : ℤ)
       (method : String) (m : Method), parseMethod method = some m → fmt ∉ LUA_FORMAT →
      add_rule rules p fmt step chunk ttl method =
        .error ("unknown format " ++ String.singleton fmt)) ∧
    (∀ (rules : List Rule) (p : String → Bool) (fmt : Char) (step chunk ttl : ℤ)
       (method : String) (m : Method), parseMethod method = some m → fmt ∈ LUA_FORMAT →
      add_rule rules p fmt step chunk ttl method =
        .ok (rules ++ [{ pattern := p, fmt := fmt, step := step, chunk := chunk,
                         ttl := ttl, method := m }])) := by
  refine ⟨?_, ?_, ?_⟩
  · intro rules p fmt step chunk ttl method hpm
    simp [add_rule, hpm]
  · intro rules p fmt step chunk ttl method m hpm hft
    simp [add_rule, hpm, hft]
  · intro rules p fmt step chunk ttl method m hpm hft
    simp [add_rule, hpm, hft]

/-- C3 witness: the amended statement evaluated on an unknown method, an
unknown format character and one valid registration. -/
theorem claimC3_witness :
    parseMethod "mean" = none ∧
    add_rule [] patTrue 'f' 1 10 100 "mean" = .error ("unknown method " ++ "mean") ∧
    parseMethod "sum" = some Method.sum ∧ 'z' ∉ LUA_FORMAT ∧
    add_rule [] patTrue 'z' 1 10 100 "sum" =
      .error ("unknown format " ++ String.singleton 'z') ∧
    'f' ∈ LUA_FORMAT ∧
    add_rule [] patTrue 'f' 1 10 100 "sum" =
      .ok ([] ++ [{ pattern := patTrue, fmt := 'f', step := 1, chunk := 10, ttl := 100,
                    method := Method.sum }]) := by
  refine ⟨rfl, ?_, rfl, by decide, ?_, by decide, ?_⟩
  · exact claimC3_amended.1 [] patTrue 'f' 1 10 100 "mean" rfl
  · exact claimC3_amended.2.1 [] patTrue 'z' 1 10 100 "sum" Method.sum rfl (by decide)
  · exact claimC3_amended.2.2 [] patTrue 'f' 1 10 100 "sum" Method.sum rfl (by decide)

/-- C4: a selected slot with count zero transforms to None whatever the
method; otherwise avg yields value divided by count, rate yields value
divided by the rule step, and every other method yields the raw value.
The fetch_range output is exactly the transform mapped over the selected
slots of the decoded flat sequence. -/
theorem claimC4_theorem :
    (∀ (m : Method) (rstep : ℤ) (x : ℚ) (n : ℕ),
      transform m rstep (x, n) =
        if n = 0 then none
        else some (match m with
          | .avg => x / (n : ℚ)
          | .rate => x / (rstep : ℚ)
          | _ => x)) ∧
    (∀ (rules : List Rule) (st : RStore) (name : String) (start stop step : ℤ)
       (rule : Rule), resolve rules name step = some rule →
      fetch_range rules st name start stop step =
        .ok ((selectIdxs rule start stop step).map
          (fun j => transform rule.method rule.step
            ((fetchSeries rule st name start stop).getD j.toNat ((0 : ℚ), (0 : ℕ)))))) := by
  constructor
  · intro m rstep x n
    cases m <;> rfl
  · intro rules st name start stop step rule hres
    unfold fetch_range
    rw [hres]

/-- C4 witness: the transform evaluated for avg on pair (3, 2), and the
fetch_range decomposition on a concrete one-rule query. -/
theorem claimC4_witness :
    transform Method.avg 1 ((3 : ℚ), 2) = some ((3 : ℚ) / 2) ∧
    fetch_range [rExA] emptyStore "a" 0 2 1 =
      .ok ((selectIdxs rExA 0 2 1).map
        (fun j => transform rExA.method rExA.step
          ((fetchSeries rExA emptyStore "a" 0 2).getD j.toNat ((0 : ℚ), (0 : ℕ))))) := by
  constructor
  · simpa using claimC4_theorem.1 Method.avg 1 3 2
  · exact claimC4_theorem.2 [rExA] emptyStore "a" 0 2 1 rExA rfl

/-- C6: code bug.  A rule whose pattern matches none of the sample names is
not skipped: the zip unpacking of the empty matched dictionary raises a
ValueError, so the whole update call fails instead of completing. -/
theorem claimC6_bug :
    update [rExSpam] emptyStore [("other", (1 : ℚ))] 0 =
      .error "need more than 0 values to unpack" := rfl

theorem scriptOne_apply_ne {m : Method} {off : ℕ} {ttl : ℤ} {st : RStore}
    {K k : String} {v : ℚ} (h : k ≠ K) : scriptOne m off ttl st K v k = st k := by
  simp [scriptOne, h]

theorem updateKeys_apply_ne {m : Method} {off : ℕ} {ttl : ℤ} {fmt : Char}
    {stp idx : ℤ} : ∀ (l : List (String × ℚ)) (st : RStore) (k : String),
    (∀ p ∈ l, chunkKey fmt stp idx p.1 ≠ k) →
    updateKeys m off ttl fmt stp idx st l k = st k := by
  intro l
  induction l with
  | nil => intro st k _; rfl
  | cons p rest ih =>
    intro st k hne
    rw [updateKeys]
    rw [ih _ k (fun q hq => hne q (List.mem_cons_of_mem _ hq))]
    exact scriptOne_apply_ne (fun he => hne p (List.mem_cons_self _ _) he.symm)

theorem updateKeys_write {m : Method} {off : ℕ} {ttl : ℤ} {fmt : Char}
    {stp idx : ℤ} (l : List (String × ℚ)) (st : RStore) (k : String)
    (h : updateKeys m off ttl fmt stp idx st l k ≠ st k) :
    ∃ p ∈ l, k = chunkKey fmt stp idx p.1 := by
  by_contra hc
  push_neg at hc
  exact h (updateKeys_apply_ne l st k (fun p hp => fun he => hc p hp he.symm))

theorem updateRule_ok {st s1 : RStore} {r : Rule} {data : List (String × ℚ)} {t : ℤ}
    (h : updateRule st r data t = .ok s1) :
    data.filter (fun p => r.pattern p.1) ≠ [] ∧
    s1 = updateKeys r.method ((t.fmod r.chunk).fdiv r.step).toNat r.ttl r.fmt r.step
      (t - t.fmod r.chunk) st (data.filter (fun p => r.pattern p.1)) := by
  cases hm : data.filter (fun p => r.pattern p.1) with
  | nil =>
    simp only [updateRule, hm] at h
    exact Except.noConfusion h
  | cons q qs =>
    simp only [updateRule, hm] at h
    injection h with h
    exact ⟨by simp, h.symm⟩

theorem update_writes : ∀ (rules : List Rule) (st st' : RStore)
    (data : List (String × ℚ)) (t : ℤ),
    update rules st data t = .ok st' → ∀ k, st' k ≠ st k →
    ∃ rule ∈ rules, ∃ p ∈ data, rule.pattern p.1 = true ∧
      k = chunkKey rule.fmt rule.step (t - t.fmod rule.chunk) p.1 := by
  intro rules
  induction rules with
  | nil =>
    intro st st' data t h k hk
    rw [update] at h
    injection h with h
    subst h
    exact absurd rfl hk
  | cons r rs ih =>
    intro st st' data t h k hk
    rw [update] at h
    cases hu : updateRule st r data t with
    | error e => rw [hu] at h; cases h
    | ok s1 =>
      rw [hu] at h
      by_cases hks : s1 k = st k
      · have hk1 : st' k ≠ s1 k := by rw [hks]; exact hk
        obtain ⟨rule, hrule, p, hp, hpat, hkey⟩ := ih s1 st' data t h k hk1
        exact ⟨rule, List.mem_cons_of_mem _ hrule, p, hp, hpat, hkey⟩
      · obtain ⟨-, hs1⟩ := updateRule_ok hu
        rw [hs1] at hks
        obtain ⟨p, hp, hkey⟩ := updateKeys_write _ st k hks
        have hpm := List.mem_filter.1 hp
        exact ⟨r, List.mem_cons_self _ _, p, hpm.1, hpm.2, hkey⟩

theorem fetchChunkKeys_shape (rule : Rule) (name : String) (start stop : ℤ)
    (k : String) (hk : k ∈ fetchChunkKeys rule name start stop) :
    ∃ j : ℕ, k = chunkKey rule.fmt rule.step
      ((start - start.fmod rule.chunk) + (j : ℤ) * rule.chunk) name := by
  rw [fetchChunkKeys] at hk
  obtain ⟨i, hi, rfl⟩ := List.mem_map.1 hk
  rw [pyRange] at hi
  obtain ⟨j, _, rfl⟩ := List.mem_map.1 hi
  exact ⟨j, rfl⟩

/-- C7 counterexample: the chunk key carries a ts: prefix before the four
fields, so it is not exactly scalarTypeTag:step:chunkIndex:name. -/
theorem claimC7_counterexample :
    chunkKey 'f' 1 0 "x" = "ts:f:1:0:x" ∧ chunkKey 'f' 1 0 "x" ≠ "f:1:0:x" := by
  exact ⟨by decide, by decide⟩

/-- C7 amended: every chunk key written by update and read by fetch_range
is exactly ts:{scalarTypeTag}:{step}:{chunkIndex}:{name} — the four fields
joined by colons, preceded by the fixed prefix ts:.  Every key update
changes is of this shape with chunkIndex = t - (t mod chunkSpan) for some
matched name, and every key fetch_range reads is of this shape with the
chunk index an aligned window start of the requested span. -/
theorem claimC7_amended :
    (∀ (f : Char) (s i : ℤ) (n : String),
      chunkKey f s i n =
        "ts:" ++ String.singleton f ++ ":" ++ toString s ++ ":" ++ toString i ++ ":" ++ n) ∧
    (∀ (rules : List Rule) (st st' : RStore) (data : List (String × ℚ)) (t : ℤ),
      update rules st data t = .ok st' → ∀ k, st' k ≠ st k →
      ∃ rule ∈ rules, ∃ p ∈ data, rule.pattern p.1 = true ∧
        k = chunkKey rule.fmt rule.step (t - t.fmod rule.chunk) p.1) ∧
    (∀ (rule : Rule) (name : String) (start stop : ℤ) (k : String),
      k ∈ fetchChunkKeys rule name start stop →
      ∃ j : ℕ, k = chunkKey rule.fmt rule.step
        ((start - start.fmod rule.chunk) + (j : ℤ) * rule.chunk) name) :=
  ⟨fun _ _ _ _ => rfl, update_writes, fetchChunkKeys_shape⟩

/-- C7 witness: the amended statement evaluated on the concrete spam.1
update at time 7 and a concrete fetch span. -/
theorem claimC7_witness :
    chunkKey 'f' 1 0 "spam.1" =
      "ts:" ++ String.singleton 'f' ++ ":" ++ toString (1 : ℤ) ++ ":" ++
        toString (0 : ℤ) ++ ":" ++ "spam.1" ∧
    update [rExSpam] emptyStore [("spam.1", (3 : ℚ))] 7 = .ok c7st ∧
    (∃ rule ∈ [rExSpam], ∃ p ∈ [("spam.1", (3 : ℚ))], rule.pattern p.1 = true ∧
      "ts:f:1:0:spam.1" = chunkKey rule.fmt rule.step ((7 : ℤ) - (7 : ℤ).fmod rule.chunk) p.1) ∧
    "ts:f:1:0:spam.1" ∈ fetchChunkKeys rExSpam "spam.1" 0 5 ∧
    (∃ j : ℕ, "ts:f:1:0:spam.1" = chunkKey rExSpam.fmt rExSpam.step
      ((0 : ℤ) - (0 : ℤ).fmod rExSpam.chunk + (j : ℤ) * rExSpam.chunk) "spam.1") := by
  refine ⟨claimC7_amended.1 'f' 1 0 "spam.1", rfl, ?_, by decide, ?_⟩
  · exact claimC7_amended.2.1 [rExSpam] emptyStore c7st [("spam.1", 3)] 7 rfl
      "ts:f:1:0:spam.1" (by decide)
  · exact claimC7_amended.2.2 rExSpam "spam.1" 0 5 "ts:f:1:0:spam.1" (by decide)

theorem getD_append_left {α : Type} (l₁ l₂ : List α) (n : ℕ) (d : α)
    (h : n < l₁.length) : (l₁ ++ l₂).getD n d = l₁.getD n d := by
  rw [List.getD_eq_getElem?_getD, List.getElem?_append_left h, List.getD_eq_getElem?_getD]

theorem getD_append_right {α : Type} (l₁ l₂ : List α) (n : ℕ) (d : α)
    (h : l₁.length ≤ n) : (l₁ ++ l₂).getD n d = l₂.getD (n - l₁.length) d := by
  rw [List.getD_eq_getElem?_getD, List.getElem?_append_right h, List.getD_eq_getElem?_getD]

theorem getD_replicate {α : Type} (n m : ℕ) (d : α) :
    (List.replicate n d).getD m d = d := by
  rw [List.getD_eq_getElem?_getD, List.getElem?_replicate]
  by_cases h : m < n <;> simp [h]

theorem getD_len_le {α : Type} (l : List α) (n : ℕ) (d : α) (h : l.length ≤ n) :
    l.getD n d = d := by
  rw [List.getD_eq_getElem?_getD, List.getElem?_eq_none h]
  rfl

theorem padSlots_getD (o : Option (List Slot)) (size j : ℕ) :
    (padSlots o size).getD j ((0 : ℚ), (0 : ℕ))
      = (o.getD []).getD j ((0 : ℚ), (0 : ℕ)) := by
  cases o with
  | none =>
    simp only [padSlots, Option.getD_none, List.getD_nil]
    exact getD_replicate size j _
  | some l =>
    simp only [padSlots, Option.getD_some]
    by_cases hj : j < l.length
    · exact getD_append_left l _ j _ hj
    · rw [getD_append_right l _ j _ (le_of_not_lt hj), getD_replicate,
        getD_len_le l j _ (le_of_not_lt hj)]

theorem padSlots_length (o : Option (List Slot)) (size : ℕ) :
    (padSlots o size).length = Max.max size (o.getD []).length := by
  cases o with
  | none => simp [padSlots]
  | some l => simp [padSlots]; omega

theorem forall₂_map_same {α β : Type} {P : β → β → Prop} (f g : α → β) :
    ∀ l : List α, (∀ x ∈ l, P (f x) (g x)) → List.Forall₂ P (l.map f) (l.map g) := by
  intro l
  induction l with
  | nil => intro _; exact List.Forall₂.nil
  | cons x xs ih =>
    intro h
    exact List.Forall₂.cons (h x (List.mem_cons_self _ _))
      (ih (fun y hy => h y (List.mem_cons_of_mem _ hy)))

theorem flatten_getD_rel {R : Slot → Slot → Prop}
    (hR0 : R ((0 : ℚ), (0 : ℕ)) ((0 : ℚ), (0 : ℕ))) :
    ∀ {ls₁ ls₂ : List (List Slot)},
    List.Forall₂ (fun c₁ c₂ => c₁.length = c₂.length ∧
      ∀ j, R (c₁.getD j ((0 : ℚ), (0 : ℕ))) (c₂.getD j ((0 : ℚ), (0 : ℕ)))) ls₁ ls₂ →
    ∀ n, R (ls₁.flatten.getD n ((0 : ℚ), (0 : ℕ))) (ls₂.flatten.getD n ((0 : ℚ), (0 : ℕ))) := by
  intro ls₁ ls₂ h
  induction h with
  | nil => intro n; simpa using hR0
  | cons hc ht ih =>
    intro n
    rename_i c₁ c₂ t₁ t₂
    rw [List.flatten_cons, List.flatten_cons]
    by_cases hn : n < c₁.length
    · rw [getD_append_left _ _ n _ hn, getD_append_left _ _ n _ (hc.1 ▸ hn)]
      exact hc.2 n
    · rw [getD_append_right _ _ n _ (le_of_not_lt hn),
        getD_append_right _ _ n _ (hc.1 ▸ le_of_not_lt hn), hc.1]
      exact ih (n - c₂.length)

theorem fetchSeries_rel {R : Slot → Slot → Prop}
    (hR0 : R ((0 : ℚ), (0 : ℕ)) ((0 : ℚ), (0 : ℕ)))
    (rule : Rule) (st₁ st₂ : RStore) (name : String) (start stop : ℤ)
    (h : ∀ k ∈ fetchChunkKeys rule name start stop,
      StoreRel R rule.chunk.toNat (st₁ k) (st₂ k)) :
    ∀ n, R ((fetchSeries rule st₁ name start stop).getD n ((0 : ℚ), (0 : ℕ)))
      ((fetchSeries rule st₂ name start stop).getD n ((0 : ℚ), (0 : ℕ))) := by
  intro n
  rw [fetchSeries, fetchSeries]
  apply flatten_getD_rel hR0
  · apply forall₂_map_same
    intro k hk
    exact h k hk

theorem fetch_range_rel (rules : List Rule) (st₁ st₂ : RStore) (name : String)
    (start stop step : ℤ) (R : Slot → Slot → Prop) (f : Option ℚ → Option ℚ)
    (hR0 : R ((0 : ℚ), (0 : ℕ)) ((0 : ℚ), (0 : ℕ)))
    (hst : ∀ r, resolve rules name step = some r →
      ∀ k ∈ fetchChunkKeys r name start stop, StoreRel R r.chunk.toNat (st₁ k) (st₂ k))
    (htr : ∀ r, resolve rules name step = some r → ∀ a b, R a b →
      transform r.method r.step b = f (transform r.method r.step a)) :
    fetch_range rules st₂ name start stop step
      = Except.map (List.map f) (fetch_range rules st₁ name start stop step) := by
  unfold fetch_range
  cases hres : resolve rules name step with
  | none => rfl
  | some r =>
    show Except.ok _ = Except.map _ (Except.ok _)
    rw [show ∀ (l : List (Option ℚ)), Except.map (List.map f) (Except.ok l)
        = (Except.ok (List.map f l) : Except String (List (Option ℚ))) from fun _ => rfl]
    congr 1
    rw [List.map_map]
    apply List.map_congr_left
    intro j _
    exact htr r hres _ _ (fetchSeries_rel hR0 r st₁ st₂ name start stop (hst r hres) j.toNat)

theorem fetch_range_congr (rules : List Rule) (st₁ st₂ : RStore) (name : String)
    (start stop step : ℤ)
    (hst : ∀ r, resolve rules name step = some r →
      ∀ k ∈ fetchChunkKeys r name start stop,
      padSlots (stSlots st₁ k) r.chunk.toNat = padSlots (stSlots st₂ k) r.chunk.toNat) :
    fetch_range rules st₁ name start stop step
      = fetch_range rules st₂ name start stop step := by
  unfold fetch_range
  cases hres : resolve rules name step with
  | none => rfl
  | some r =>
    have hser : fetchSeries r st₁ name start stop = fetchSeries r st₂ name start stop := by
      rw [fetchSeries, fetchSeries]
      congr 1
      apply List.map_congr_left
      intro k hk
      exact hst r hres k hk
    show Except.ok ((selectIdxs r start stop step).map
        (fun j => transform r.method r.step
          ((fetchSeries r st₁ name start stop).getD j.toNat ((0 : ℚ), (0 : ℕ)))))
      = Except.ok ((selectIdxs r start stop step).map
        (fun j => transform r.method r.step
          ((fetchSeries r st₂ name start stop).getD j.toNat ((0 : ℚ), (0 : ℕ)))))
    rw [hser]

theorem padSlots_replicate_zero (n sz : ℕ) (h : n ≤ sz) :
    padSlots (some (List.replicate n ((0 : ℚ), (0 : ℕ)))) sz = padSlots none sz := by
  simp only [padSlots, List.length_replicate]
  rw [← List.replicate_add]
  congr 1
  omega

theorem padSlots_append_replicate (l : List Slot) (m sz : ℕ) (h : l.length + m ≤ sz) :
    padSlots (some (l ++ List.replicate m ((0 : ℚ), (0 : ℕ)))) sz
      = padSlots (some l) sz := by
  simp only [padSlots, List.length_append, List.length_replicate]
  rw [List.append_assoc, ← List.replicate_add]
  congr 2
  omega

/-- C8: once a rule resolves, fetch_range always returns a result (decoding
never fails); a chunk key that is missing from the store gives the same
fetch_range output as one holding an explicit all-zero chunk; and a chunk
stored shorter than the chunk size gives the same output as its right-zero-
padded extension.  An all-zero (never written) slot transforms to null. -/
theorem claimC8_theorem :
    (∀ (rules : List Rule) (st : RStore) (name : String) (start stop step : ℤ)
       (r : Rule), resolve rules name step = some r →
      ∃ l, fetch_range rules st name start stop step = .ok l) ∧
    (∀ (rules : List Rule) (st₁ st₂ : RStore) (name : String) (start stop step : ℤ)
       (k : String) (n : ℕ),
      (∀ k2, k2 ≠ k → stSlots st₁ k2 = stSlots st₂ k2) →
      stSlots st₁ k = none →
      stSlots st₂ k = some (List.replicate n ((0 : ℚ), (0 : ℕ))) →
      (∀ r, resolve rules name step = some r → n ≤ r.chunk.toNat) →
      fetch_range rules st₁ name start stop step
        = fetch_range rules st₂ name start stop step) ∧
    (∀ (rules : List Rule) (st₁ st₂ : RStore) (name : String) (start stop step : ℤ)
       (k : String) (l : List Slot) (m : ℕ),
      (∀ k2, k2 ≠ k → stSlots st₁ k2 = stSlots st₂ k2) →
      stSlots st₁ k = some l →
      stSlots st₂ k = some (l ++ List.replicate m ((0 : ℚ), (0 : ℕ))) →
      (∀ r, resolve rules name step = some r → l.length + m ≤ r.chunk.toNat) →
      fetch_range rules st₁ name start stop step
        = fetch_range rules st₂ name start stop step) ∧
    (∀ (m : Method) (rstep : ℤ), transform m rstep ((0 : ℚ), (0 : ℕ)) = none) := by
  refine ⟨?_, ?_, ?_, ?_⟩
  · intro rules st name start stop step r hres
    unfold fetch_range
    rw [hres]
    exact ⟨_, rfl⟩
  · intro rules st₁ st₂ name start stop step k n hne h1 h2 hn
    apply fetch_range_congr
    intro r hres k2 hk2
    by_cases hk : k2 = k
    · subst hk
      rw [h1, h2, padSlots_replicate_zero n _ (hn r hres)]
    · rw [hne k2 hk]
  · intro rules st₁ st₂ name start stop step k l m hne h1 h2 hn
    apply fetch_range_congr
    intro r hres k2 hk2
    by_cases hk : k2 = k
    · subst hk
      rw [h1, h2, padSlots_append_replicate l m _ (hn r hres)]
    · rw [hne k2 hk]
  · intro m rstep
    cases m <;> rfl

/-- C8 witness: the statement evaluated on concrete stores — a missing
chunk against an explicit all-zero chunk, and a one-slot chunk against its
padded extension, over the same one-rule query. -/
theorem claimC8_witness :
    (∃ l, fetch_range [rExA] emptyStore "a" 0 3 1 = .ok l) ∧
    fetch_range [rExA] emptyStore "a" 0 3 1 = fetch_range [rExA] c8stB "a" 0 3 1 ∧
    fetch_range [rExA] c8stC "a" 0 3 1 = fetch_range [rExA] c8stD "a" 0 3 1 ∧
    transform Method.sum 1 ((0 : ℚ), (0 : ℕ)) = none := by
  refine ⟨claimC8_theorem.1 [rExA] emptyStore "a" 0 3 1 rExA rfl, ?_, ?_,
    claimC8_theorem.2.2.2 Method.sum 1⟩
  · apply claimC8_theorem.2.1 [rExA] emptyStore c8stB "a" 0 3 1 "ts:f:1:0:a" 3
    · intro k2 hk2
      simp [stSlots, emptyStore, c8stB, hk2]
    · rfl
    · rfl
    · intro r hr
      rw [show resolve [rExA] "a" 1 = some rExA from rfl] at hr
      injection hr with hr
      subst hr
      decide
  · apply claimC8_theorem.2.2.1 [rExA] c8stC c8stD "a" 0 3 1 "ts:f:1:0:a"
      [((5 : ℚ), (1 : ℕ))] 2
    · intro k2 hk2
      simp [stSlots, c8stC, c8stD, hk2]
    · rfl
    · rfl
    · intro r hr
      rw [show resolve [rExA] "a" 1 = some rExA from rfl] at hr
      injection hr with hr
      subst hr
      decide

/-- C10: fetch_range only issues GET commands against the store; executing
its command trace leaves every key's chunk bytes and remaining ttl exactly
as they were, and the fetch_range result depends on the store only through
the values of the keys it GETs. -/
theorem claimC10_theorem (rules : List Rule) (name : String) (start stop step : ℤ)
    (st : RStore) :
    (∀ c ∈ fetchCmds rules name start stop step, c.isGet = true) ∧
    (fetchCmds rules name start stop step).foldl execCmd st = st ∧
    (∀ st₁ st₂ : RStore,
      (∀ k, RCmd.get k ∈ fetchCmds rules name start stop step → st₁ k = st₂ k) →
      fetch_range rules st₁ name start stop step
        = fetch_range rules st₂ name start stop step) := by
  refine ⟨?_, ?_, ?_⟩
  · intro c hc
    rw [fetchCmds] at hc
    cases hres : resolve rules name step with
    | none => rw [hres] at hc; cases hc
    | some r =>
      rw [hres] at hc
      obtain ⟨k, _, rfl⟩ := List.mem_map.1 hc
      rfl
  · rw [fetchCmds]
    cases hres : resolve rules name step with
    | none => rfl
    | some r =>
      show List.foldl execCmd st ((fetchChunkKeys r name start stop).map RCmd.get) = st
      generalize fetchChunkKeys r name start stop = keys
      induction keys generalizing st with
      | nil => rfl
      | cons k ks ih => exact ih st
  · intro st₁ st₂ h
    apply fetch_range_congr
    intro r hres k hk
    have hmem : RCmd.get k ∈ fetchCmds rules name start stop step := by
      rw [fetchCmds, hres]
      exact List.mem_map_of_mem RCmd.get hk
    rw [stSlots, stSlots, h k hmem]

/-- C10 witness: the statement evaluated on a concrete one-rule query — the
single command is a GET, executing it leaves a concrete store untouched,
and a store differing only at an unread key gives the same result. -/
theorem claimC10_witness :
    fetchCmds [rExA] "a" 0 5 1 = [RCmd.get "ts:f:1:0:a"] ∧
    (RCmd.get "ts:f:1:0:a").isGet = true ∧
    (fetchCmds [rExA] "a" 0 5 1).foldl execCmd c7st = c7st ∧
    fetch_range [rExA] emptyStore "a" 0 5 1 = fetch_range [rExA] c10st "a" 0 5 1 := by
  refine ⟨rfl, ?_, (claimC10_theorem [rExA] "a" 0 5 1 c7st).2.1, ?_⟩
  · exact (claimC10_theorem [rExA] "a" 0 5 1 c7st).1 (RCmd.get "ts:f:1:0:a")
      (by rw [show fetchCmds [rExA] "a" 0 5 1 = [RCmd.get "ts:f:1:0:a"] from rfl]
          exact List.mem_singleton.2 rfl)
  · apply (claimC10_theorem [rExA] "a" 0 5 1 c7st).2.2 emptyStore c10st
    intro k hk
    rw [show fetchCmds [rExA] "a" 0 5 1 = [RCmd.get "ts:f:1:0:a"] from rfl] at hk
    have hkk := List.mem_singleton.1 hk
    injection hkk with hkk
    subst hkk
    decide

theorem chunkKey_name_inj {f : Char} {s i : ℤ} {n₁ n₂ : String}
    (h : chunkKey f s i n₁ = chunkKey f s i n₂) : n₁ = n₂ := by
  have hd := congrArg String.data h
  rw [chunkKey, chunkKey, String.data_append, String.data_append] at hd
  exact String.ext (List.append_cancel_left hd)

theorem scriptOne_eval (m : Method) (off : ℕ) (ttl : ℤ) (s : RStore)
    (K : String) (v : ℚ) (k : String) :
    scriptOne m off ttl s K v k =
      if k = K then
        some (setSlot ((stSlots s K).getD []) off
          (luaUpdateSlot m (((stSlots s K).getD [])[off]?) v), ttl)
      else s k := rfl

theorem scriptOne_congr_at {m : Method} {off : ℕ} {ttl : ℤ} {s₁ s₂ : RStore}
    {K : String} {v : ℚ} {k : String} (h : s₁ K = s₂ K) (h2 : s₁ k = s₂ k) :
    scriptOne m off ttl s₁ K v k = scriptOne m off ttl s₂ K v k := by
  rw [scriptOne_eval, scriptOne_eval, stSlots, stSlots, h]
  by_cases hk : k = K
  · simp [hk]
  · simp [hk, h2]

theorem updateKeys_apply (m : Method) (off : ℕ) (ttl : ℤ) (fmt : Char) (stp idx : ℤ) :
    ∀ (l : List (String × ℚ)) (st : RStore) (k : String),
    (l.map Prod.fst).Nodup →
    updateKeys m off ttl fmt stp idx st l k =
      (match l.find? (fun p => chunkKey fmt stp idx p.1 == k) with
       | some p => scriptOne m off ttl st (chunkKey fmt stp idx p.1) p.2 k
       | none => st k) := by
  intro l
  induction l with
  | nil => intro st k _; rfl
  | cons p rest ih =>
    intro st k hnd
    have hnd2 : (rest.map Prod.fst).Nodup := by
      rw [List.map_cons] at hnd
      exact hnd.of_cons
    have hpnot : p.1 ∉ rest.map Prod.fst := by
      rw [List.map_cons] at hnd
      exact (List.nodup_cons.1 hnd).1
    rw [updateKeys, ih _ k hnd2]
    by_cases hpk : (chunkKey fmt stp idx p.1 == k) = true
    · have hkeq : chunkKey fmt stp idx p.1 = k := by simpa using hpk
      simp only [List.find?_cons, hpk]
      cases hfr : rest.find? (fun q => chunkKey fmt stp idx q.1 == k) with
      | none => rfl
      | some q =>
        have hq := List.find?_some hfr
        have hqeq : chunkKey fmt stp idx q.1 = k := by simpa using hq
        have hq1 : q.1 = p.1 := chunkKey_name_inj (hqeq.trans hkeq.symm)
        have hqmem : q ∈ rest := List.mem_of_find?_eq_some hfr
        exact absurd (hq1 ▸ List.mem_map_of_mem Prod.fst hqmem) hpnot
    · have hkne : k ≠ chunkKey fmt stp idx p.1 := by
        intro he
        exact hpk (by simp [he])
      have hpkf : (chunkKey fmt stp idx p.1 == k) = false := by simpa using hpk
      simp only [List.find?_cons, hpkf]
      cases hfr : rest.find? (fun q => chunkKey fmt stp idx q.1 == k) with
      | none => exact scriptOne_apply_ne hkne
      | some q =>
        have hq := List.find?_some hfr
        have hqeq : chunkKey fmt stp idx q.1 = k := by simpa using hq
        have hne2 : chunkKey fmt stp idx q.1 ≠ chunkKey fmt stp idx p.1 :=
          hqeq ▸ hkne
        exact scriptOne_congr_at (scriptOne_apply_ne hne2) (scriptOne_apply_ne hkne)

theorem updateKeys_found (m : Method) (off : ℕ) (ttl : ℤ) (fmt : Char) (stp idx : ℤ)
    {l : List (String × ℚ)} {k : String} {p : String × ℚ}
    (hnd : (l.map Prod.fst).Nodup)
    (hfr : l.find? (fun q => chunkKey fmt stp idx q.1 == k) = some p) (st : RStore) :
    updateKeys m off ttl fmt stp idx st l k
      = scriptOne m off ttl st (chunkKey fmt stp idx p.1) p.2 k := by
  rw [updateKeys_apply m off ttl fmt stp idx l st k hnd, hfr]

theorem updateKeys_not_found (m : Method) (off : ℕ) (ttl : ℤ) (fmt : Char) (stp idx : ℤ)
    {l : List (String × ℚ)} {k : String}
    (hnd : (l.map Prod.fst).Nodup)
    (hfr : l.find? (fun q => chunkKey fmt stp idx q.1 == k) = none) (st : RStore) :
    updateKeys m off ttl fmt stp idx st l k = st k := by
  rw [updateKeys_apply m off ttl fmt stp idx l st k hnd, hfr]

theorem setSlot_length (l : List Slot) (i : ℕ) (s : Slot) :
    (setSlot l i s).length = Max.max l.length (i + 1) := by
  rw [setSlot, List.length_set, List.length_append, List.length_replicate]
  omega

theorem setSlot_getElem_self (l : List Slot) (i : ℕ) (s : Slot) :
    (setSlot l i s)[i]? = some s := by
  rw [setSlot]
  exact List.getElem?_set_self
    (by rw [List.length_append, List.length_replicate]; omega)

theorem setSlot_getD_self (l : List Slot) (i : ℕ) (s : Slot) :
    (setSlot l i s).getD i ((0 : ℚ), (0 : ℕ)) = s := by
  rw [List.getD_eq_getElem?_getD, setSlot_getElem_self]
  rfl

theorem append_replicate_getD (l : List Slot) (q j : ℕ) :
    (l ++ List.replicate q ((0 : ℚ), (0 : ℕ))).getD j ((0 : ℚ), (0 : ℕ))
      = l.getD j ((0 : ℚ), (0 : ℕ)) := by
  by_cases hj : j < l.length
  · exact getD_append_left _ _ _ _ hj
  · rw [getD_append_right _ _ _ _ (le_of_not_lt hj), getD_replicate,
      getD_len_le _ _ _ (le_of_not_lt hj)]

theorem setSlot_getD_ne (l : List Slot) (i j : ℕ) (s : Slot) (h : j ≠ i) :
    (setSlot l i s).getD j ((0 : ℚ), (0 : ℕ)) = l.getD j ((0 : ℚ), (0 : ℕ)) := by
  rw [setSlot, List.getD_eq_getElem?_getD, List.getElem?_set_ne (Ne.symm h),
    ← List.getD_eq_getElem?_getD, append_replicate_getD]

theorem luaUpdateSlot_count_ne_zero (m : Method) (o : Option Slot) (v : ℚ) :
    (luaUpdateSlot m o v).2 ≠ 0 := by
  cases o with
  | none => simp [luaUpdateSlot]
  | some s =>
    obtain ⟨a, c⟩ := s
    by_cases hc : c = 0
    · simp [luaUpdateSlot, hc]
    · by_cases hlt : c < countMax m <;> simp [luaUpdateSlot, hc, hlt]

theorem luaUpdateSlot_last_fst (o : Option Slot) (v : ℚ) :
    (luaUpdateSlot Method.last o v).1 = v := by
  cases o with
  | none => rfl
  | some s =>
    obtain ⟨a, c⟩ := s
    by_cases hc : c = 0 <;> simp [luaUpdateSlot, hc, nextValue]

theorem resolve_single {r r' : Rule} {name : String} {s : ℤ}
    (h : resolve [r] name s = some r') : r' = r := by
  rw [resolve, show (sortRules [r]).reverse = [r] from rfl, findRule] at h
  by_cases hm : ruleMatches r name s
  · rw [if_pos hm] at h
    injection h with h
    exact h.symm
  · rw [if_neg hm, findRule] at h
    cases h

theorem update_single {r : Rule} {st st' : RStore} {data : List (String × ℚ)} {t : ℤ}
    (h : update [r] st data t = .ok st') :
    data.filter (fun p => r.pattern p.1) ≠ [] ∧
    st' = updateKeys r.method ((t.fmod r.chunk).fdiv r.step).toNat r.ttl r.fmt r.step
      (t - t.fmod r.chunk) st (data.filter (fun p => r.pattern p.1)) := by
  cases hu : updateRule st r data t with
  | error e =>
    simp only [update, hu] at h
    exact Except.noConfusion h
  | ok s1 =>
    simp only [update, hu] at h
    injection h with h
    obtain ⟨hne, hs⟩ := updateRule_ok hu
    exact ⟨hne, h.symm.trans hs⟩

theorem except_map_map_id (e : Except String (List (Option ℚ))) :
    Except.map (List.map (fun x : Option ℚ => x)) e = e := by
  cases e with
  | error a => rfl
  | ok l =>
    show Except.ok (l.map (fun x => x)) = Except.ok l
    rw [show l.map (fun x => x) = l from List.map_id' l]

theorem StoreRel_some {R : Slot → Slot → Prop} {sz : ℕ} {L₁ L₂ : List Slot} {t₁ t₂ : ℤ}
    (hlen : L₁.length = L₂.length)
    (hpt : ∀ j, R (L₁.getD j ((0 : ℚ), (0 : ℕ))) (L₂.getD j ((0 : ℚ), (0 : ℕ)))) :
    StoreRel R sz (some (L₁, t₁)) (some (L₂, t₂)) := by
  constructor
  · rw [padSlots_length, padSlots_length]
    simp [hlen]
  · intro j
    rw [padSlots_getD, padSlots_getD]
    simpa using hpt j

theorem double_updateKeys_rel (R : Slot → Slot → Prop) (hrefl : ∀ u, R u u)
    (m : Method)
    (hlua : ∀ (o : Option Slot) (v : ℚ),
      R (luaUpdateSlot m o v) (luaUpdateSlot m (some (luaUpdateSlot m o v)) v))
    (off : ℕ) (ttl : ℤ) (fmt : Char) (stp idx : ℤ)
    (matched : List (String × ℚ)) (hnd : (matched.map Prod.fst).Nodup)
    (st : RStore) (k : String) (sz : ℕ) :
    StoreRel R sz (updateKeys m off ttl fmt stp idx st matched k)
      (updateKeys m off ttl fmt stp idx
        (updateKeys m off ttl fmt stp idx st matched) matched k) := by
  cases hfr : matched.find? (fun q => chunkKey fmt stp idx q.1 == k) with
  | none =>
    rw [updateKeys_not_found m off ttl fmt stp idx hnd hfr,
      updateKeys_not_found m off ttl fmt stp idx hnd hfr,
      updateKeys_not_found m off ttl fmt stp idx hnd hfr]
    exact ⟨rfl, fun _ => hrefl _⟩
  | some p =>
    have hkeq : chunkKey fmt stp idx p.1 = k := by
      simpa using List.find?_some hfr
    subst hkeq
    rw [updateKeys_found m off ttl fmt stp idx hnd hfr,
      updateKeys_found m off ttl fmt stp idx hnd hfr]
    have hST1 : stSlots (updateKeys m off ttl fmt stp idx st matched)
        (chunkKey fmt stp idx p.1)
        = some (setSlot ((stSlots st (chunkKey fmt stp idx p.1)).getD []) off
            (luaUpdateSlot m (((stSlots st (chunkKey fmt stp idx p.1)).getD [])[off]?) p.2)) := by
      rw [stSlots, updateKeys_found m off ttl fmt stp idx hnd hfr,
        scriptOne_eval, if_pos rfl]
      rfl
    rw [scriptOne_eval, scriptOne_eval, if_pos rfl, if_pos rfl, hST1, Option.getD_some,
      setSlot_getElem_self]
    apply StoreRel_some
    · rw [setSlot_length, setSlot_length, setSlot_length]
      omega
    · intro j
      by_cases hj : j = off
      · subst hj
        rw [setSlot_getD_self, setSlot_getD_self]
        exact hlua _ p.2
      · rw [setSlot_getD_ne _ _ _ _ hj, setSlot_getD_ne _ _ _ _ hj,
          setSlot_getD_ne _ _ _ _ hj]
        exact hrefl _

theorem double_updateKeys_rel_empty (R : Slot → Slot → Prop)
    (hR0 : R ((0 : ℚ), (0 : ℕ)) ((0 : ℚ), (0 : ℕ)))
    (m : Method)
    (hlua : ∀ v : ℚ,
      R (luaUpdateSlot m none v) (luaUpdateSlot m (some (luaUpdateSlot m none v)) v))
    (off : ℕ) (ttl : ℤ) (fmt : Char) (stp idx : ℤ)
    (matched : List (String × ℚ)) (hnd : (matched.map Prod.fst).Nodup)
    (k : String) (sz : ℕ) :
    StoreRel R sz (updateKeys m off ttl fmt stp idx emptyStore matched k)
      (updateKeys m off ttl fmt stp idx
        (updateKeys m off ttl fmt stp idx emptyStore matched) matched k) := by
  cases hfr : matched.find? (fun q => chunkKey fmt stp idx q.1 == k) with
  | none =>
    rw [updateKeys_not_found m off ttl fmt stp idx hnd hfr,
      updateKeys_not_found m off ttl fmt stp idx hnd hfr,
      updateKeys_not_found m off ttl fmt stp idx hnd hfr]
    exact ⟨rfl, fun j => by rw [padSlots_getD]; exact hR0⟩
  | some p =>
    have hkeq : chunkKey fmt stp idx p.1 = k := by
      simpa using List.find?_some hfr
    subst hkeq
    rw [updateKeys_found m off ttl fmt stp idx hnd hfr,
      updateKeys_found m off ttl fmt stp idx hnd hfr]
    have hST1 : stSlots (updateKeys m off ttl fmt stp idx emptyStore matched)
        (chunkKey fmt stp idx p.1)
        = some (setSlot ((stSlots emptyStore (chunkKey fmt stp idx p.1)).getD []) off
            (luaUpdateSlot m
              (((stSlots emptyStore (chunkKey fmt stp idx p.1)).getD [])[off]?) p.2)) := by
      rw [stSlots, updateKeys_found m off ttl fmt stp idx hnd hfr,
        scriptOne_eval, if_pos rfl]
      rfl
    rw [scriptOne_eval, scriptOne_eval, if_pos rfl, if_pos rfl, hST1, Option.getD_some,
      setSlot_getElem_self]
    apply StoreRel_some
    · rw [setSlot_length, setSlot_length, setSlot_length]
      omega
    · intro j
      by_cases hj : j = off
      · subst hj
        rw [setSlot_getD_self, setSlot_getD_self]
        exact hlua p.2
      · rw [setSlot_getD_ne _ _ _ _ hj, setSlot_getD_ne _ _ _ _ hj,
          setSlot_getD_ne _ _ _ _ hj]
        exact hR0

theorem lua_sum_step (v : ℚ) :
    luaUpdateSlot Method.sum (some (luaUpdateSlot Method.sum none v)) v
      = (2 * v, 2) := by
  show luaUpdateSlot Method.sum (some (v, 1)) v = (2 * v, 2)
  norm_num [luaUpdateSlot, nextValue, countMax, countBytes]
  ring

theorem lua_avg_step (v : ℚ) :
    luaUpdateSlot Method.avg (some (luaUpdateSlot Method.avg none v)) v
      = (2 * v, 2) := by
  show luaUpdateSlot Method.avg (some (v, 1)) v = (2 * v, 2)
  norm_num [luaUpdateSlot, nextValue, countMax, countBytes]
  ring

/-- C9 counterexample: for an avg rule, the second identical update does
not double the value observed through fetch_range — the stored sum and
count both double, so the observed average stays 10 instead of 20. -/
theorem claimC9_counterexample :
    update [rExAvg] emptyStore [("a", (10 : ℚ))] 0 = .ok c9avg1 ∧
    update [rExAvg] c9avg1 [("a", (10 : ℚ))] 0 = .ok c9avg2 ∧
    fetch_range [rExAvg] c9avg1 "a" 0 1 1 = .ok [some 10] ∧
    fetch_range [rExAvg] c9avg2 "a" 0 1 1 = .ok [some 10] ∧
    fetch_range [rExAvg] c9avg2 "a" 0 1 1
      ≠ Except.map (List.map (Option.map (fun x : ℚ => 2 * x)))
          (fetch_range [rExAvg] c9avg1 "a" 0 1 1) := by
  have e1 : fetch_range [rExAvg] c9avg1 "a" 0 1 1 = .ok [some 10] := by
    with_unfolding_all rfl
  have e2 : fetch_range [rExAvg] c9avg2 "a" 0 1 1 = .ok [some 10] := by
    with_unfolding_all rfl
  refine ⟨rfl, rfl, e1, e2, ?_⟩
  rw [e1, e2]
  norm_num [Except.map]

/-- C9 amended: for a last-method rule the second identical update leaves
the fetch_range observation unchanged (idempotent, from any starting
store); for a sum rule starting from an empty store the second identical
update doubles every non-null fetch_range value; for an avg rule it
doubles the stored sum and count, so the fetch_range observation is again
unchanged. -/
theorem claimC9_amended :
    (∀ (r : Rule) (st st₁ st₂ : RStore) (data : List (String × ℚ)) (t : ℤ)
       (name : String) (qa qb qs : ℤ),
      r.method = Method.last →
      (data.map Prod.fst).Nodup →
      update [r] st data t = .ok st₁ →
      update [r] st₁ data t = .ok st₂ →
      fetch_range [r] st₂ name qa qb qs = fetch_range [r] st₁ name qa qb qs) ∧
    (∀ (r : Rule) (st₁ st₂ : RStore) (data : List (String × ℚ)) (t : ℤ)
       (name : String) (qa qb qs : ℤ),
      r.method = Method.sum →
      (data.map Prod.fst).Nodup →
      update [r] emptyStore data t = .ok st₁ →
      update [r] st₁ data t = .ok st₂ →
      fetch_range [r] st₂ name qa qb qs
        = Except.map (List.map (Option.map (fun x : ℚ => 2 * x)))
            (fetch_range [r] st₁ name qa qb qs)) ∧
    (∀ (r : Rule) (st₁ st₂ : RStore) (data : List (String × ℚ)) (t : ℤ)
       (name : String) (qa qb qs : ℤ),
      r.method = Method.avg →
      (data.map Prod.fst).Nodup →
      update [r] emptyStore data t = .ok st₁ →
      update [r] st₁ data t = .ok st₂ →
      fetch_range [r] st₂ name qa qb qs = fetch_range [r] st₁ name qa qb qs) := by
  refine ⟨?_, ?_, ?_⟩
  · intro r st st₁ st₂ data t name qa qb qs hm hnd h1 h2
    obtain ⟨-, hst1⟩ := update_single h1
    obtain ⟨-, hst2⟩ := update_single h2
    have hndm : ((data.filter (fun p => r.pattern p.1)).map Prod.fst).Nodup :=
      hnd.sublist (List.Sublist.map _ (List.filter_sublist _))
    have hst : ∀ r2, resolve [r] name qs = some r2 →
        ∀ k ∈ fetchChunkKeys r2 name qa qb,
        StoreRel (fun u w => u.1 = w.1 ∧ (u.2 = 0 ↔ w.2 = 0))
          r2.chunk.toNat (st₁ k) (st₂ k) := by
      intro r2 _ k _
      rw [hst2, hst1, hm]
      exact double_updateKeys_rel _ (fun u => ⟨rfl, Iff.rfl⟩) Method.last
        (fun o v => ⟨(luaUpdateSlot_last_fst o v).trans
            (luaUpdateSlot_last_fst (some (luaUpdateSlot Method.last o v)) v).symm,
          iff_of_false (luaUpdateSlot_count_ne_zero _ _ _)
            (luaUpdateSlot_count_ne_zero _ _ _)⟩)
        _ _ _ _ _ _ hndm st k _
    have htr : ∀ r2, resolve [r] name qs = some r2 → ∀ u w,
        (u.1 = w.1 ∧ (u.2 = 0 ↔ w.2 = 0)) →
        transform r2.method r2.step w
          = (fun x : Option ℚ => x) (transform r2.method r2.step u) := by
      intro r2 hres u w hR
      obtain rfl := resolve_single hres
      rw [hm]
      obtain ⟨hfst, hiff⟩ := hR
      by_cases hu : u.2 = 0
      · simp [transform, hu, hiff.1 hu]
      · have hw : ¬ w.2 = 0 := fun hw0 => hu (hiff.2 hw0)
        simp [transform, hu, hw, hfst]
    rw [fetch_range_rel [r] st₁ st₂ name qa qb qs
      (fun u w => u.1 = w.1 ∧ (u.2 = 0 ↔ w.2 = 0)) (fun x => x)
      ⟨rfl, Iff.rfl⟩ hst htr, except_map_map_id]
  · intro r st₁ st₂ data t name qa qb qs hm hnd h1 h2
    obtain ⟨-, hst1⟩ := update_single h1
    obtain ⟨-, hst2⟩ := update_single h2
    have hndm : ((data.filter (fun p => r.pattern p.1)).map Prod.fst).Nodup :=
      hnd.sublist (List.Sublist.map _ (List.filter_sublist _))
    have hst : ∀ r2, resolve [r] name qs = some r2 →
        ∀ k ∈ fetchChunkKeys r2 name qa qb,
        StoreRel (fun u w => w.1 = 2 * u.1 ∧ (u.2 = 0 ↔ w.2 = 0))
          r2.chunk.toNat (st₁ k) (st₂ k) := by
      intro r2 _ k _
      rw [hst2, hst1, hm]
      exact double_updateKeys_rel_empty _ (by norm_num) Method.sum
        (fun v => ⟨by rw [lua_sum_step,
            show luaUpdateSlot Method.sum none v = (v, 1) from rfl],
          iff_of_false (luaUpdateSlot_count_ne_zero _ _ _)
            (luaUpdateSlot_count_ne_zero _ _ _)⟩)
        _ _ _ _ _ _ hndm k _
    have htr : ∀ r2, resolve [r] name qs = some r2 → ∀ u w,
        (w.1 = 2 * u.1 ∧ (u.2 = 0 ↔ w.2 = 0)) →
        transform r2.method r2.step w
          = Option.map (fun x : ℚ => 2 * x) (transform r2.method r2.step u) := by
      intro r2 hres u w hR
      obtain rfl := resolve_single hres
      rw [hm]
      obtain ⟨hfst, hiff⟩ := hR
      by_cases hu : u.2 = 0
      · simp [transform, hu, hiff.1 hu]
      · have hw : ¬ w.2 = 0 := fun hw0 => hu (hiff.2 hw0)
        simp [transform, hu, hw, hfst]
    exact fetch_range_rel [r] st₁ st₂ name qa qb qs
      (fun u w => w.1 = 2 * u.1 ∧ (u.2 = 0 ↔ w.2 = 0))
      (Option.map (fun x : ℚ => 2 * x)) (by norm_num) hst htr
  · intro r st₁ st₂ data t name qa qb qs hm hnd h1 h2
    obtain ⟨-, hst1⟩ := update_single h1
    obtain ⟨-, hst2⟩ := update_single h2
    have hndm : ((data.filter (fun p => r.pattern p.1)).map Prod.fst).Nodup :=
      hnd.sublist (List.Sublist.map _ (List.filter_sublist _))
    have hst : ∀ r2, resolve [r] name qs = some r2 →
        ∀ k ∈ fetchChunkKeys r2 name qa qb,
        StoreRel (fun u w => w.1 = 2 * u.1 ∧ w.2 = 2 * u.2)
          r2.chunk.toNat (st₁ k) (st₂ k) := by
      intro r2 _ k _
      rw [hst2, hst1, hm]
      exact double_updateKeys_rel_empty _ (by norm_num) Method.avg
        (fun v => by
          rw [lua_avg_step, show luaUpdateSlot Method.avg none v = (v, 1) from rfl]
          exact ⟨rfl, rfl⟩)
        _ _ _ _ _ _ hndm k _
    have htr : ∀ r2, resolve [r] name qs = some r2 → ∀ u w,
        (w.1 = 2 * u.1 ∧ w.2 = 2 * u.2) →
        transform r2.method r2.step w
          = (fun x : Option ℚ => x) (transform r2.method r2.step u) := by
      intro r2 hres u w hR
      obtain rfl := resolve_single hres
      rw [hm]
      obtain ⟨hfst, hsnd⟩ := hR
      by_cases hu : u.2 = 0
      · have hw : w.2 = 0 := by omega
        simp [transform, hu, hw]
      · have hw : w.2 ≠ 0 := by omega
        show transform Method.avg _ w = transform Method.avg _ u
        simp only [transform]
        rw [if_neg hw, if_neg hu]
        congr 1
        rw [hfst, hsnd]
        push_cast
        rw [mul_div_mul_left _ _ (by norm_num : (2 : ℚ) ≠ 0)]
    rw [fetch_range_rel [r] st₁ st₂ name qa qb qs
      (fun u w => w.1 = 2 * u.1 ∧ w.2 = 2 * u.2) (fun x => x)
      (by norm_num) hst htr, except_map_map_id]

/-- C9 witness: the amended statement evaluated on concrete one-rule
scenarios for last, sum and avg, each updating the value 10 twice at
time 0 from an empty store. -/
theorem claimC9_witness :
    ([("a", (10 : ℚ))].map Prod.fst).Nodup ∧
    update [rExLast] emptyStore [("a", (10 : ℚ))] 0 = .ok c9last1 ∧
    update [rExLast] c9last1 [("a", (10 : ℚ))] 0 = .ok c9last2 ∧
    fetch_range [rExLast] c9last2 "a" 0 2 1 = fetch_range [rExLast] c9last1 "a" 0 2 1 ∧
    update [rExSum] emptyStore [("a", (10 : ℚ))] 0 = .ok c9sum1 ∧
    update [rExSum] c9sum1 [("a", (10 : ℚ))] 0 = .ok c9sum2 ∧
    fetch_range [rExSum] c9sum2 "a" 0 2 1
      = Except.map (List.map (Option.map (fun x : ℚ => 2 * x)))
          (fetch_range [rExSum] c9sum1 "a" 0 2 1) ∧
    update [rExAvg] emptyStore [("a", (10 : ℚ))] 0 = .ok c9avg1 ∧
    update [rExAvg] c9avg1 [("a", (10 : ℚ))] 0 = .ok c9avg2 ∧
    fetch_range [rExAvg] c9avg2 "a" 0 2 1 = fetch_range [rExAvg] c9avg1 "a" 0 2 1 := by
  refine ⟨by decide, rfl, rfl, ?_, rfl, rfl, ?_, rfl, rfl, ?_⟩
  · exact claimC9_amended.1 rExLast emptyStore c9last1 c9last2 [("a", 10)] 0 "a" 0 2 1
      rfl (by decide) rfl rfl
  · exact claimC9_amended.2.1 rExSum c9sum1 c9sum2 [("a", 10)] 0 "a" 0 2 1
      rfl (by decide) rfl rfl
  · exact claimC9_amended.2.2 rExAvg c9avg1 c9avg2 [("a", 10)] 0 "a" 0 2 1
      rfl (by decide) rfl rfl

end Neutrino
